import Mathlib

/-!
Verification development for the recursive-version-control-system repository.

Go strings are modelled as lists of characters (`Str`).  Go's nullable
pointers (`*Hash`, `*File`) are modelled as `Option`.  The sha256 digest is
kept abstract: functions that hash bytes take a digest function
`hashHex : Str → Str` as an explicit parameter (mirroring `snapshot.NewHash`,
which always tags the digest with the algorithm name "sha256").
Filesystem and zip I/O errors are not modelled; every other branch of the
translated functions is kept exactly as in the Go source.
-/

/-- Str models a Go string as its list of characters (bytes). -/
abbrev Str := List Char

/-- goSplitChar models Go strings.Split(s, sep) for a one-character separator.
The result is always a non-empty list of separator-free chunks. -/
def goSplitChar (sep : Char) : Str → List Str
  | [] => [[]]
  | c :: cs =>
    let rest := goSplitChar sep cs
    if c = sep then [] :: rest
    else (c :: rest.headD []) :: rest.tail

/-- goJoinChar models Go strings.Join(parts, sep) for a one-character separator. -/
def goJoinChar (sep : Char) : List Str → Str
  | [] => []
  | [x] => x
  | x :: y :: rest => x ++ sep :: goJoinChar sep (y :: rest)

theorem goSplitChar_ne_nil (sep : Char) (s : Str) : goSplitChar sep s ≠ [] := by
  cases s with
  | nil => simp [goSplitChar]
  | cons c cs =>
    simp only [goSplitChar]
    split <;> simp

theorem goSplitChar_no_sep (sep : Char) (s : Str) (h : sep ∉ s) :
    goSplitChar sep s = [s] := by
  induction s with
  | nil => rfl
  | cons c cs ih =>
    simp only [List.mem_cons, not_or] at h
    simp only [goSplitChar, ih h.2]
    rw [if_neg (fun hc => h.1 hc.symm)]
    rfl

theorem goSplitChar_append_sep (sep : Char) (x r : Str) (hx : sep ∉ x) :
    goSplitChar sep (x ++ sep :: r) = x :: goSplitChar sep r := by
  induction x with
  | nil => simp [goSplitChar]
  | cons c cs ih =>
    simp only [List.mem_cons, not_or] at hx
    have h2 := ih hx.2
    simp only [List.cons_append, goSplitChar, h2]
    rw [if_neg (fun hc => hx.1 hc.symm)]
    simp [h2]

theorem goSplitChar_goJoinChar (sep : Char) (parts : List Str)
    (hne : parts ≠ []) (hfree : ∀ p ∈ parts, sep ∉ p) :
    goSplitChar sep (goJoinChar sep parts) = parts := by
  induction parts with
  | nil => exact absurd rfl hne
  | cons x rest ih =>
    cases rest with
    | nil =>
      simpa [goJoinChar] using
        goSplitChar_no_sep sep x (hfree x (List.mem_cons_self x []))
    | cons y t =>
      have hx : sep ∉ x := hfree x (List.mem_cons_self _ _)
      have hrest : ∀ p ∈ y :: t, sep ∉ p := fun p hp =>
        hfree p (List.mem_cons_of_mem _ hp)
      simp only [goJoinChar, goSplitChar_append_sep sep x _ hx]
      rw [ih (by simp) hrest]

theorem goSplitChar_append_tail_sep (sep : Char) (s : Str) :
    goSplitChar sep (s ++ [sep]) = goSplitChar sep s ++ [[]] := by
  induction s with
  | nil => simp [goSplitChar]
  | cons c cs ih =>
    simp only [List.cons_append, goSplitChar]
    by_cases hc : c = sep
    · simp [hc, ih]
    · rw [if_neg hc, if_neg hc]
      have hne := goSplitChar_ne_nil sep cs
      cases h : goSplitChar sep cs with
      | nil => exact absurd h hne
      | cons a b => simp [ih, h]

theorem goSplitChar_append_replicate (sep : Char) (s : Str) (k : Nat) :
    goSplitChar sep (s ++ List.replicate k sep)
      = goSplitChar sep s ++ List.replicate k [] := by
  induction k generalizing s with
  | zero => simp
  | succ n ih =>
    have : s ++ List.replicate (n + 1) sep = (s ++ [sep]) ++ List.replicate n sep := by
      simp [List.replicate_succ]
    rw [this, ih, goSplitChar_append_tail_sep]
    simp [List.replicate_succ]

/-- goJoinChar of at least two parts always contains the separator, hence
is a non-empty string. -/
theorem goJoinChar_ne_nil (sep : Char) (x y : Str) (rest : List Str) :
    goJoinChar sep (x :: y :: rest) ≠ [] := by
  cases x <;> simp [goJoinChar]

/-- goSplitN2 models Go strings.SplitN(s, sep, 2) for a one-character
separator, returning the part before the first separator and the part after
it.  The callers below only use it after checking strings.Contains. -/
def goSplitN2 (sep : Char) : Str → Str × Str
  | [] => ([], [])
  | c :: cs =>
    if c = sep then ([], cs)
    else
      let r := goSplitN2 sep cs
      (c :: r.1, r.2)

theorem goSplitN2_append (sep : Char) (a b : Str) (ha : sep ∉ a) :
    goSplitN2 sep (a ++ sep :: b) = (a, b) := by
  induction a with
  | nil => simp [goSplitN2]
  | cons c cs ih =>
    simp only [List.mem_cons, not_or] at ha
    simp only [List.cons_append, goSplitN2]
    rw [if_neg (fun hc => ha.1 hc.symm)]
    simp [ih ha.2]

/-- Hash models snapshot.Hash: an algorithm name plus a hex digest.
The Go type keeps both fields as strings; Hash.Equal is field-wise string
equality, so two Hash values are Equal exactly when they are equal here. -/
structure Hash where
  function : Str
  hexContents : Str
deriving DecidableEq, Repr

/-- hashStringO models the Go method Hash.String, including the nil
receiver case (the nil hash serializes as the empty string). -/
def hashStringO : Option Hash → Str
  | none => []
  | some h => h.function ++ ':' :: h.hexContents

/-- hashEqualO models the Go method Hash.Equal, including its nil handling:
nil equals only nil, and non-nil hashes compare field-wise. -/
def hashEqualO : Option Hash → Option Hash → Bool
  | none, none => true
  | some h, some o => decide (h.function = o.function) && decide (h.hexContents = o.hexContents)
  | none, some _ => false
  | some _, none => false

theorem hashEqualO_iff (a b : Option Hash) : hashEqualO a b = true ↔ a = b := by
  cases a with
  | none => cases b <;> simp [hashEqualO]
  | some x =>
    cases b with
    | none => simp [hashEqualO]
    | some y =>
      cases x
      cases y
      simp [hashEqualO, Hash.mk.injEq]

/-- supportedHashFunctions models the keys of the Go map of the same name;
sha256 is the only supported algorithm. -/
def supportedHashFunctions : List Str := ["sha256".data]

/-- isGoHexDigit models the set of bytes accepted by Go's
encoding/hex fromHexChar: 0-9, a-f and A-F (uppercase is accepted). -/
def isGoHexDigit (c : Char) : Bool :=
  ('0' ≤ c && c ≤ '9') || ('a' ≤ c && c ≤ 'f') || ('A' ≤ c && c ≤ 'F')

/-- hexDecodeOk models whether Go's hex.DecodeString succeeds: every byte
must be a hex digit and the length must be even. -/
def hexDecodeOk (s : Str) : Bool := s.all isGoHexDigit && s.length % 2 == 0

/-- ParseHash models snapshot.ParseHash.  The empty string parses to the
nil hash; otherwise the string is split on the first colon, the algorithm
must be supported and the remainder must be valid hex.  The Go internal
check len(parts) != 2 cannot fire once strings.Contains succeeded and is
not represented. -/
def ParseHash (str : Str) : Except String (Option Hash) :=
  if str.length = 0 then .ok none
  else if ':' ∉ str then .error "malformed hash string"
  else
    let parts := goSplitN2 ':' str
    if parts.1 ∉ supportedHashFunctions then .error "unsupported hash function"
    else if ¬hexDecodeOk parts.2 then .error "malformed hash contents"
    else .ok (some ⟨parts.1, parts.2⟩)

/-- WfHash states that a Hash value is one ParseHash could have produced:
the algorithm is sha256 and the digest is decodable hex. -/
def WfHash (h : Hash) : Prop :=
  h.function = "sha256".data ∧ hexDecodeOk h.hexContents = true

theorem mem_of_hexDecodeOk {s : Str} (h : hexDecodeOk s = true) :
    ∀ c ∈ s, isGoHexDigit c = true := by
  simp only [hexDecodeOk, Bool.and_eq_true, List.all_eq_true] at h
  exact h.1

theorem hexDigit_ne_colon {c : Char} (h : isGoHexDigit c = true) : c ≠ ':' := by
  rintro rfl
  simp [isGoHexDigit, Char.le_def] at h

theorem hexDigit_ne_newline {c : Char} (h : isGoHexDigit c = true) : c ≠ '\n' := by
  rintro rfl
  simp [isGoHexDigit, Char.le_def] at h

theorem ParseHash_hashStringO {h : Hash} (hw : WfHash h) :
    ParseHash (hashStringO (some h)) = .ok (some h) := by
  obtain ⟨hf, hx⟩ := hw
  have hcolon : ':' ∉ h.function := by
    rw [hf]; decide
  have hsplit := goSplitN2_append ':' h.function h.hexContents hcolon
  simp only [ParseHash, hashStringO]
  rw [if_neg (by rw [hf]; simp), if_neg (by simp), hsplit]
  rw [if_neg (by simp [supportedHashFunctions, hf]), if_neg (by simp [hx])]

/-- File models snapshot.File.  Mode is the textual file mode, Contents the
hash of the backing blob (nil only for broken links), Parents the list of
predecessor snapshot hashes.  The Go field Parents has type a slice of hash
pointers, so entries are themselves nullable. -/
structure File where
  Mode : Str
  Contents : Option Hash
  Parents : List (Option Hash)
deriving DecidableEq, Repr

/-- FileString models the Go method File.String, including the nil receiver
case: the mode line, then the contents hash (empty line when nil), then
each non-nil parent, joined with newlines. -/
def FileString : Option File → Str
  | none => []
  | some f =>
    let contentsStr := hashStringO f.Contents
    let lines := f.Mode :: contentsStr ::
      f.Parents.filterMap (fun p => p.map (fun q => hashStringO (some q)))
    goJoinChar '\n' lines

/-- parseFileHashes models the hash-parsing loop inside snapshot.ParseFile,
carrying the running index i over lines after the mode line: a parse error
aborts, a nil hash at index 0 is the missing-contents error, a nil hash at
any later index is skipped, and non-nil hashes are accumulated in order. -/
def parseFileHashes (i : Nat) : List Str → Except String (List Hash)
  | [] => .ok []
  | line :: rest =>
    match ParseHash line with
    | .error _ => .error "failure parsing the hash"
    | .ok none =>
      if i = 0 then .error "missing contents"
      else parseFileHashes (i + 1) rest
    | .ok (some h) =>
      match parseFileHashes (i + 1) rest with
      | .error e => .error e
      | .ok hs => .ok (h :: hs)

/-- ParseFile models snapshot.ParseFile: empty input is the nil file, at
least two newline-separated lines are required, line 0 is the mode, and the
remaining lines run through the hash loop.  When the loop succeeds its
result is non-empty (index 0 must have produced a hash), so the internal
branch below is unreachable; Go would panic there. -/
def ParseFile (encoded : Str) : Except String (Option File) :=
  if encoded.length = 0 then .ok none
  else
    let lines := goSplitChar '\n' encoded
    if lines.length < 2 then .error "malformed file metadata"
    else
      match parseFileHashes 0 lines.tail with
      | .error e => .error e
      | .ok [] => .error "internal"
      | .ok (h0 :: hrest) =>
        .ok (some ⟨lines.headD [], some h0, hrest.map some⟩)

/-- WfFile characterizes the well-formed file records: a newline-free mode
line, a non-nil well-formed contents hash, and non-nil well-formed parents. -/
def WfFile (f : File) : Prop :=
  '\n' ∉ f.Mode ∧
  (∃ c, f.Contents = some c ∧ WfHash c) ∧
  (∀ p ∈ f.Parents, ∃ q, p = some q ∧ WfHash q)

theorem newline_not_mem_hashStringO {h : Hash} (hw : WfHash h) :
    '\n' ∉ hashStringO (some h) := by
  obtain ⟨hf, hx⟩ := hw
  simp only [hashStringO, List.mem_append, List.mem_cons, not_or]
  refine ⟨by rw [hf]; decide, by decide, fun hm => ?_⟩
  exact hexDigit_ne_newline (mem_of_hexDecodeOk hx _ hm) rfl

theorem parseFileHashes_blanks (i : Nat) (hi : i ≠ 0) (k : Nat) :
    parseFileHashes i (List.replicate k []) = .ok [] := by
  induction k generalizing i with
  | zero => rfl
  | succ n ih =>
    have h0 : ParseHash [] = .ok none := rfl
    simp only [List.replicate_succ, parseFileHashes, h0]
    rw [if_neg hi]
    exact ih (i + 1) (by omega)

theorem parseFileHashes_parents (ps : List (Option Hash))
    (hp : ∀ p ∈ ps, ∃ q, p = some q ∧ WfHash q) (i : Nat) (hi : i ≠ 0) (k : Nat) :
    parseFileHashes i
        ((ps.filterMap (fun p => p.map (fun q => hashStringO (some q))))
          ++ List.replicate k [])
      = .ok (ps.filterMap id) := by
  induction ps generalizing i with
  | nil => simpa using parseFileHashes_blanks i hi k
  | cons p rest ih =>
    obtain ⟨q, rfl, hq⟩ := hp p (List.mem_cons_self _ _)
    have hrest : ∀ r ∈ rest, ∃ s, r = some s ∧ WfHash s := fun r hr =>
      hp r (List.mem_cons_of_mem _ hr)
    have hih := ih hrest (i + 1) (by omega)
    simp only [List.filterMap_cons, Option.map_some, List.cons_append,
      parseFileHashes, ParseHash_hashStringO hq, List.append_eq] at hih ⊢
    rw [hih]
    simp

theorem filterMap_id_map_some (ps : List (Option Hash))
    (hp : ∀ p ∈ ps, ∃ q, p = some q) :
    (ps.filterMap id).map some = ps := by
  induction ps with
  | nil => rfl
  | cons p rest ih =>
    obtain ⟨q, rfl⟩ := hp p (List.mem_cons_self _ _)
    simp only [List.filterMap_cons, id, List.map_cons, List.cons.injEq, true_and]
    exact ih fun r hr => hp r (List.mem_cons_of_mem _ hr)

/-- C1, amended part.  For every well-formed file record with a non-nil
contents hash, serializing with File.String and re-parsing with ParseFile
recovers the record exactly, and any number of trailing blank lines on the
serialized input is tolerated (and normalized away on re-serialization,
since the parse result is the original record). -/
theorem parseFile_fileString_round_trip (f : File) (hw : WfFile f) (k : Nat) :
    ParseFile (FileString (some f) ++ List.replicate k '\n') = .ok (some f) := by
  obtain ⟨hmode, ⟨c, hc, hcw⟩, hps⟩ := hw
  have hlines : ∀ l ∈ (f.Mode :: hashStringO f.Contents ::
      f.Parents.filterMap (fun p => p.map (fun q => hashStringO (some q)))), '\n' ∉ l := by
    intro l hl
    rcases List.mem_cons.mp hl with rfl | hl
    · exact hmode
    rcases List.mem_cons.mp hl with rfl | hl
    · rw [hc]; exact newline_not_mem_hashStringO hcw
    · obtain ⟨p, hpm, hpe⟩ := List.mem_filterMap.mp hl
      obtain ⟨q, rfl, hqw⟩ := hps p hpm
      simp at hpe
      rw [← hpe]
      exact newline_not_mem_hashStringO hqw
  have hsplit :
      goSplitChar '\n' (FileString (some f) ++ List.replicate k '\n')
        = (f.Mode :: hashStringO f.Contents ::
            f.Parents.filterMap (fun p => p.map (fun q => hashStringO (some q))))
          ++ List.replicate k [] := by
    rw [goSplitChar_append_replicate, FileString,
      goSplitChar_goJoinChar '\n' _ (by simp) hlines]
  have hjoin : FileString (some f) ≠ [] := by
    simp only [FileString]
    exact goJoinChar_ne_nil '\n' _ _ _
  have hne : (FileString (some f) ++ List.replicate k '\n').length ≠ 0 := by
    simp only [List.length_append, ne_eq, Nat.add_eq_zero, not_and_or]
    left
    simpa using hjoin
  have hparents := parseFileHashes_parents f.Parents hps (0 + 1) (by omega) k
  simp only [List.append_eq] at hparents
  simp only [ParseFile, hsplit]
  rw [if_neg hne]
  rw [if_neg (by simp only [List.cons_append, List.length_cons, not_lt]; omega)]
  simp only [List.cons_append, List.tail_cons, parseFileHashes, hc,
    ParseHash_hashStringO hcw, List.append_eq, hparents]
  rw [filterMap_id_map_some f.Parents (fun p hp => (hps p hp).imp fun q hq => hq.1)]
  simp only [List.headD_cons]
  rw [← hc]

/-- brokenLinkFile is the snapshot record of a broken symbolic link: nil
contents hash and an empty parents list (the File documentation allows nil
contents exactly for broken links). -/
def brokenLinkFile : File := ⟨"Lrwxrwxrwx".data, none, []⟩

/-- C1, counterexample part.  The broken-link file record serializes to its
mode line followed by an empty contents line, and ParseFile rejects that
very string with the missing-contents error, so parse after serialize does
not return the record: the claimed round-trip fails for nil contents. -/
theorem parseFile_rejects_broken_link :
    ParseFile (FileString (some brokenLinkFile)) = .error "missing contents" := by
  rfl

/-- c1WitnessFile is a concrete well-formed file record with contents and
one parent, used to instantiate the round-trip theorem. -/
def c1WitnessFile : File :=
  ⟨"-rwxr-x---".data, some ⟨"sha256".data, "ab".data⟩, [some ⟨"sha256".data, "cd".data⟩]⟩

theorem parseFile_fileString_round_trip_witness :
    ParseFile (FileString (some c1WitnessFile) ++ List.replicate 2 '\n')
      = .ok (some c1WitnessFile) :=
  parseFile_fileString_round_trip c1WitnessFile
    ⟨by decide, ⟨⟨"sha256".data, "ab".data⟩, rfl, ⟨rfl, by decide⟩⟩, by
      intro p hp
      simp only [c1WitnessFile, List.mem_singleton] at hp
      exact ⟨⟨"sha256".data, "cd".data⟩, hp, ⟨rfl, by decide⟩⟩⟩ 2

/-- C10.  Hash parsing does not canonicalize letter case: the input with
the sha256 tag and uppercase hex digits parses successfully, its String
re-serialization returns the same uppercase spelling, and Equal reports the
uppercase and lowercase spellings of one digest as unequal hashes. -/
theorem parseHash_preserves_hex_case :
    ParseHash "sha256:ABCDEF".data = .ok (some ⟨"sha256".data, "ABCDEF".data⟩)
    ∧ hashStringO (some ⟨"sha256".data, "ABCDEF".data⟩) = "sha256:ABCDEF".data
    ∧ hashEqualO (some ⟨"sha256".data, "ABCDEF".data⟩)
        (some ⟨"sha256".data, "abcdef".data⟩) = false :=
  ⟨by rfl, by decide, by decide⟩

/-- alookup is association-list lookup; it models reading the keyed file a
store operation resolves (first matching binding wins, and updates below
always prepend). -/
def alookup {α β : Type} [DecidableEq α] : List (α × β) → α → Option β
  | [], _ => none
  | e :: rest, k => if e.1 = k then some e.2 else alookup rest k

/-- ainsert models overwriting the keyed file with new contents. -/
def ainsert {α β : Type} [DecidableEq α] (l : List (α × β)) (k : α) (v : β) :
    List (α × β) :=
  (k, v) :: l

/-- aerase models removing the keyed file. -/
def aerase {α β : Type} [DecidableEq α] (l : List (α × β)) (k : α) : List (α × β) :=
  l.filter (fun e => decide (e.1 ≠ k))

theorem alookup_ainsert_self {α β : Type} [DecidableEq α]
    (l : List (α × β)) (k : α) (v : β) : alookup (ainsert l k v) k = some v := by
  simp [ainsert, alookup]

theorem alookup_ainsert_ne {α β : Type} [DecidableEq α]
    (l : List (α × β)) (k k' : α) (v : β) (h : k ≠ k') :
    alookup (ainsert l k v) k' = alookup l k' := by
  simp [ainsert, alookup, h]

theorem alookup_aerase_self {α β : Type} [DecidableEq α]
    (l : List (α × β)) (k : α) : alookup (aerase l k) k = none := by
  induction l with
  | nil => rfl
  | cons e rest ih =>
    by_cases he : e.1 = k
    · simpa [aerase, he] using ih
    · simpa [aerase, alookup, he] using ih

/-- CacheTuple models the Go cachedInfo struct: the (size, mode, mtime,
inode) tuple kept in a path-info cache entry.  Go serializes the struct
with fmt %+v and compares the rendered lines; distinct tuples render
distinct lines, so the model compares the tuples themselves. -/
structure CacheTuple where
  Size : Int
  Mode : Nat
  ModTime : Int
  Ino : Nat
deriving DecidableEq, Repr

/-- FileInfo models the parts of Go os.FileInfo that the engine reads: the
numeric file mode and its Mode().String() rendering, size, modification
time, the inode from the syscall Stat_t, and whether a Stat_t was available
at all (info.Sys() can be nil on exotic platforms). -/
structure FileInfo where
  Size : Int
  Mode : Nat
  ModeString : Str
  ModTime : Int
  Ino : Nat
  hasStat : Bool
deriving DecidableEq, Repr

/-- cacheTupleOf is the tuple both CachePathInfo and PathInfoMatchesCache
derive from a FileInfo. -/
def cacheTupleOf (info : FileInfo) : CacheTuple :=
  ⟨info.Size, info.Mode, info.ModTime, info.Ino⟩

/-- MemStore models the archive directory behind storage.LocalFiles as four
keyed tables: the content-addressed objects, the path index (paths/...),
the path-info cache (cache/...) and the identity index (identities/...).
Go keys the latter three by the sha256 of the path or identity string; the
path index and cache are keyed here by the string itself, which agrees with
the Go behavior because reader and writer always hash the same string. -/
structure MemStore where
  objects : List (Hash × Str)
  pathSnapshots : List (Str × (Hash × File))
  cache : List (Str × CacheTuple)
  identities : List (Str × Str)
deriving Repr

/-- storeObject models storage.LocalFiles.StoreObject: hash the bytes with
sha256 (the abstract digest hashHex) and file them under the resulting
hash; re-storing equal bytes renames onto the same location.  The
large-object encryption branch changes only the at-rest encoding, never the
hash or the bytes read back, and is not distinguished here. -/
def storeObject (hashHex : Str → Str) (σ : MemStore) (contents : Str) :
    MemStore × Hash :=
  let h : Hash := ⟨"sha256".data, hashHex contents⟩
  ({σ with objects := ainsert σ.objects h contents}, h)

/-- readObject models storage.LocalFiles.ReadObject: resolve the stored
bytes for a hash (Go tries the small then the large object tree); a missing
object is the not-found result, modelled as none. -/
def readObject (σ : MemStore) (h : Hash) : Option Str :=
  alookup σ.objects h

/-- findSnapshot models storage.LocalFiles.FindSnapshot: resolve the path
mapping to the stored (hash, file) pair; a missing mapping file is the
not-found result, modelled as none. -/
def findSnapshot (σ : MemStore) (p : Str) : Option (Hash × File) :=
  alookup σ.pathSnapshots p

/-- storeSnapshot models storage.LocalFiles.StoreSnapshot: the serialized
File record is stored as an object and the path mapping for p is
overwritten with the new hash.  The mapped-paths cascade in the Go function
only removes mappings at strict subpaths p.Join(child) of p, never the
mapping at p itself, and is not represented because every claim below
observes a single path. -/
def storeSnapshot (hashHex : Str → Str) (σ : MemStore) (p : Str) (f : File) :
    MemStore × Hash :=
  let r := storeObject hashHex σ (FileString (some f))
  ({r.1 with pathSnapshots := ainsert r.1.pathSnapshots p (r.2, f)}, r.2)

/-- cachePathInfo models storage.LocalFiles.CachePathInfo.  Without stat
information it returns success and writes nothing.  Otherwise it follows
the Go control flow around os.Remove exactly: when an old cache entry
exists the removal succeeds, os.IsNotExist(nil) is false, and the negated
check makes the function return the failure-removing error with the entry
already gone; only when no old entry existed (os.Remove failed with
not-exist) does it fall through and write the fresh tuple. -/
def cachePathInfo (σ : MemStore) (p : Str) (info : FileInfo) :
    MemStore × Option String :=
  if ¬info.hasStat then (σ, none)
  else
    match alookup σ.cache p with
    | some _ =>
      ({σ with cache := aerase σ.cache p}, some "failure removing the old cache entry")
    | none =>
      ({σ with cache := ainsert σ.cache p (cacheTupleOf info)}, none)

/-- pathInfoMatchesCache models storage.LocalFiles.PathInfoMatchesCache:
true exactly when stat information is available, a cache entry for the path
exists, and the stored tuple renders the same line as the fresh one. -/
def pathInfoMatchesCache (σ : MemStore) (p : Str) (info : FileInfo) : Bool :=
  info.hasStat &&
    match alookup σ.cache p with
    | some t => decide (t = cacheTupleOf info)
    | none => false

/-- snapshotFileMetadata models snapshot.snapshotFileMetadata: look up the
previous snapshot of the path; when both the mode line and the contents
hash are unchanged, return the previous (hash, file) pair without writing;
otherwise assemble the new record — with the previous hash as the only
parent when a previous snapshot exists, and no parents otherwise — and
store it.  I/O errors of FindSnapshot and StoreSnapshot are not modelled,
so the function is total. -/
def snapshotFileMetadata (hashHex : Str → Str) (σ : MemStore) (p : Str)
    (info : FileInfo) (contentsHash : Option Hash) : MemStore × Hash × File :=
  let modeLine := info.ModeString
  match findSnapshot σ p with
  | some (prevFileHash, prev) =>
    if prev.Mode = modeLine ∧ hashEqualO prev.Contents contentsHash = true then
      (σ, prevFileHash, prev)
    else
      let f : File := ⟨modeLine, contentsHash, [some prevFileHash]⟩
      let r := storeSnapshot hashHex σ p f
      (r.1, r.2, f)
  | none =>
    let f : File := ⟨modeLine, contentsHash, []⟩
    let r := storeSnapshot hashHex σ p f
    (r.1, r.2, f)

/-- readCached models snapshot.readCached: the cached snapshot is returned
only when the path-info cache matches and the path mapping resolves. -/
def readCached (σ : MemStore) (p : Str) (info : FileInfo) :
    Option (Hash × File) :=
  if pathInfoMatchesCache σ p info then findSnapshot σ p else none

/-- snapshotRegularFile models snapshot.snapshotRegularFile, the branch of
snapshot.Current for regular files: try the cache fast path, otherwise
store the contents blob, run the metadata step, and finally (the deferred
call, which runs because no error occurred and whose own error the engine
discards) rewrite the path-info cache. -/
def snapshotRegularFile (hashHex : Str → Str) (σ : MemStore) (p : Str)
    (info : FileInfo) (contents : Str) : MemStore × Hash × File :=
  match readCached σ p info with
  | some cached => (σ, cached)
  | none =>
    let r1 := storeObject hashHex σ contents
    let r2 := snapshotFileMetadata hashHex r1.1 p info (some r1.2)
    ((cachePathInfo r2.1 p info).1, r2.2)

theorem findSnapshot_storeObject (hashHex : Str → Str) (σ : MemStore)
    (c : Str) (q : Str) :
    findSnapshot (storeObject hashHex σ c).1 q = findSnapshot σ q := rfl

theorem findSnapshot_cachePathInfo (σ : MemStore) (p : Str) (info : FileInfo)
    (q : Str) :
    findSnapshot (cachePathInfo σ p info).1 q = findSnapshot σ q := by
  unfold cachePathInfo
  split
  · rfl
  · split <;> rfl

theorem findSnapshot_storeSnapshot_self (hashHex : Str → Str) (σ : MemStore)
    (p : Str) (f : File) :
    findSnapshot (storeSnapshot hashHex σ p f).1 p
      = some ((storeSnapshot hashHex σ p f).2, f) := by
  simp [storeSnapshot, storeObject, findSnapshot, alookup_ainsert_self]

theorem hashEqualO_self (a : Option Hash) : hashEqualO a a = true :=
  (hashEqualO_iff a a).mpr rfl

theorem snapshotFileMetadata_unchanged (hashHex : Str → Str) (σ : MemStore)
    (p : Str) (info : FileInfo) (ch : Option Hash) (ph : Hash) (pf : File)
    (hfs : findSnapshot σ p = some (ph, pf))
    (h1 : pf.Mode = info.ModeString) (h2 : pf.Contents = ch) :
    snapshotFileMetadata hashHex σ p info ch = (σ, ph, pf) := by
  have hcond : pf.Mode = info.ModeString ∧ hashEqualO pf.Contents ch = true :=
    ⟨h1, by rw [h2]; exact hashEqualO_self ch⟩
  unfold snapshotFileMetadata
  rw [hfs]
  simp [hcond]

theorem snapshotFileMetadata_changed (hashHex : Str → Str) (σ : MemStore)
    (p : Str) (info : FileInfo) (ch : Option Hash) (ph : Hash) (pf : File)
    (hfs : findSnapshot σ p = some (ph, pf))
    (hcond : ¬(pf.Mode = info.ModeString ∧ hashEqualO pf.Contents ch = true)) :
    snapshotFileMetadata hashHex σ p info ch
      = ((storeSnapshot hashHex σ p ⟨info.ModeString, ch, [some ph]⟩).1,
         (storeSnapshot hashHex σ p ⟨info.ModeString, ch, [some ph]⟩).2,
         ⟨info.ModeString, ch, [some ph]⟩) := by
  unfold snapshotFileMetadata
  rw [hfs]
  simp [hcond]

theorem snapshotFileMetadata_fresh (hashHex : Str → Str) (σ : MemStore)
    (p : Str) (info : FileInfo) (ch : Option Hash)
    (hfs : findSnapshot σ p = none) :
    snapshotFileMetadata hashHex σ p info ch
      = ((storeSnapshot hashHex σ p ⟨info.ModeString, ch, []⟩).1,
         (storeSnapshot hashHex σ p ⟨info.ModeString, ch, []⟩).2,
         ⟨info.ModeString, ch, []⟩) := by
  unfold snapshotFileMetadata
  rw [hfs]

theorem snapshotFileMetadata_post (hashHex : Str → Str) (σ : MemStore)
    (p : Str) (info : FileInfo) (ch : Option Hash) :
    findSnapshot (snapshotFileMetadata hashHex σ p info ch).1 p
      = some ((snapshotFileMetadata hashHex σ p info ch).2.1,
          (snapshotFileMetadata hashHex σ p info ch).2.2) := by
  cases hfs : findSnapshot σ p with
  | none =>
    rw [snapshotFileMetadata_fresh hashHex σ p info ch hfs]
    exact findSnapshot_storeSnapshot_self hashHex σ p _
  | some pr =>
    obtain ⟨ph, pf⟩ := pr
    by_cases hcond : pf.Mode = info.ModeString ∧ hashEqualO pf.Contents ch = true
    · rw [snapshotFileMetadata_unchanged hashHex σ p info ch ph pf hfs hcond.1
        ((hashEqualO_iff _ _).mp hcond.2)]
      exact hfs
    · rw [snapshotFileMetadata_changed hashHex σ p info ch ph pf hfs hcond]
      exact findSnapshot_storeSnapshot_self hashHex σ p _

theorem snapshotFileMetadata_shape (hashHex : Str → Str) (σ : MemStore)
    (p : Str) (info : FileInfo) (ch : Option Hash) :
    (snapshotFileMetadata hashHex σ p info ch).2.2.Mode = info.ModeString
      ∧ (snapshotFileMetadata hashHex σ p info ch).2.2.Contents = ch := by
  cases hfs : findSnapshot σ p with
  | none => rw [snapshotFileMetadata_fresh hashHex σ p info ch hfs]; exact ⟨rfl, rfl⟩
  | some pr =>
    obtain ⟨ph, pf⟩ := pr
    by_cases hcond : pf.Mode = info.ModeString ∧ hashEqualO pf.Contents ch = true
    · rw [snapshotFileMetadata_unchanged hashHex σ p info ch ph pf hfs hcond.1
        ((hashEqualO_iff _ _).mp hcond.2)]
      exact ⟨hcond.1, (hashEqualO_iff _ _).mp hcond.2⟩
    · rw [snapshotFileMetadata_changed hashHex σ p info ch ph pf hfs hcond]
      exact ⟨rfl, rfl⟩

theorem snapshotRegularFile_fast (hashHex : Str → Str) (σ : MemStore)
    (p : Str) (info : FileInfo) (contents : Str) (cached : Hash × File)
    (hrc : readCached σ p info = some cached) :
    snapshotRegularFile hashHex σ p info contents = (σ, cached) := by
  unfold snapshotRegularFile
  rw [hrc]

theorem snapshotRegularFile_slow (hashHex : Str → Str) (σ : MemStore)
    (p : Str) (info : FileInfo) (contents : Str)
    (hrc : readCached σ p info = none) :
    snapshotRegularFile hashHex σ p info contents
      = ((cachePathInfo
            (snapshotFileMetadata hashHex (storeObject hashHex σ contents).1 p
              info (some (storeObject hashHex σ contents).2)).1 p info).1,
         (snapshotFileMetadata hashHex (storeObject hashHex σ contents).1 p
              info (some (storeObject hashHex σ contents).2)).2) := by
  unfold snapshotRegularFile
  rw [hrc]

theorem snapshotRegularFile_post (hashHex : Str → Str) (σ : MemStore)
    (p : Str) (info : FileInfo) (contents : Str) :
    findSnapshot (snapshotRegularFile hashHex σ p info contents).1 p
      = some ((snapshotRegularFile hashHex σ p info contents).2.1,
          (snapshotRegularFile hashHex σ p info contents).2.2) := by
  cases hrc : readCached σ p info with
  | some cached =>
    rw [snapshotRegularFile_fast hashHex σ p info contents cached hrc]
    unfold readCached at hrc
    by_cases hm : pathInfoMatchesCache σ p info = true
    · rw [if_pos hm] at hrc
      exact hrc
    · simp [hm] at hrc
  | none =>
    rw [snapshotRegularFile_slow hashHex σ p info contents hrc]
    simp only [findSnapshot_cachePathInfo]
    exact snapshotFileMetadata_post hashHex _ p info _

theorem snapshotRegularFile_shape (hashHex : Str → Str) (σ : MemStore)
    (p : Str) (info : FileInfo) (contents : Str)
    (hrc : readCached σ p info = none) :
    (snapshotRegularFile hashHex σ p info contents).2.2.Mode = info.ModeString
      ∧ (snapshotRegularFile hashHex σ p info contents).2.2.Contents
          = some ⟨"sha256".data, hashHex contents⟩ := by
  rw [snapshotRegularFile_slow hashHex σ p info contents hrc]
  exact snapshotFileMetadata_shape hashHex _ p info _

/-- C3.  Running the regular-file snapshot engine twice on the same path
with the same stat information and the same contents returns the same
(hash, file) pair: the second call either hits the path-info cache fast
path, or re-derives the same contents hash and takes the metadata shortcut
because mode line and contents hash both equal the stored previous
snapshot. -/
theorem snapshotRegularFile_idempotent (hashHex : Str → Str) (σ : MemStore)
    (p : Str) (info : FileInfo) (contents : Str) :
    (snapshotRegularFile hashHex
        (snapshotRegularFile hashHex σ p info contents).1 p info contents).2
      = (snapshotRegularFile hashHex σ p info contents).2 := by
  cases hrc : readCached σ p info with
  | some cached =>
    have hσ : (snapshotRegularFile hashHex σ p info contents).1 = σ := by
      rw [snapshotRegularFile_fast hashHex σ p info contents cached hrc]
    rw [hσ]
  | none =>
    have hpost := snapshotRegularFile_post hashHex σ p info contents
    have hshape := snapshotRegularFile_shape hashHex σ p info contents hrc
    cases hrc2 : readCached (snapshotRegularFile hashHex σ p info contents).1 p info with
    | some cached2 =>
      rw [snapshotRegularFile_fast hashHex _ p info contents cached2 hrc2]
      unfold readCached at hrc2
      by_cases hm : pathInfoMatchesCache (snapshotRegularFile hashHex σ p info contents).1 p info = true
      · rw [if_pos hm] at hrc2
        rw [hpost] at hrc2
        injection hrc2 with h2
        rw [← h2]
      · simp [hm] at hrc2
    | none =>
      rw [snapshotRegularFile_slow hashHex _ p info contents hrc2]
      have hfs1 : findSnapshot
          (storeObject hashHex (snapshotRegularFile hashHex σ p info contents).1 contents).1 p
          = some ((snapshotRegularFile hashHex σ p info contents).2.1,
              (snapshotRegularFile hashHex σ p info contents).2.2) := by
        rw [findSnapshot_storeObject]
        exact hpost
      rw [snapshotFileMetadata_unchanged hashHex _ p info _ _ _ hfs1 hshape.1
        (by rw [hshape.2]; rfl)]

/-- emptyStore is an archive directory with no objects, mappings, cache
entries or identity entries. -/
def emptyStore : MemStore := ⟨[], [], [], []⟩

/-- C4.  The metadata step links histories: when a previous snapshot
(h_prev, prev) is stored for the path and the mode line or the contents
hash changed, the stored-and-returned new File has Parents exactly
[h_prev], and the path mapping afterwards resolves to the returned pair;
when no previous snapshot mapping exists, the new File has no parents. -/
theorem snapshotFileMetadata_parent_links (hashHex : Str → Str) (σ : MemStore)
    (p : Str) (info : FileInfo) (ch : Option Hash) :
    (∀ hprev prev, findSnapshot σ p = some (hprev, prev) →
        ¬(prev.Mode = info.ModeString ∧ hashEqualO prev.Contents ch = true) →
        (snapshotFileMetadata hashHex σ p info ch).2.2.Parents = [some hprev]
          ∧ findSnapshot (snapshotFileMetadata hashHex σ p info ch).1 p
              = some ((snapshotFileMetadata hashHex σ p info ch).2.1,
                  (snapshotFileMetadata hashHex σ p info ch).2.2))
    ∧ (findSnapshot σ p = none →
        (snapshotFileMetadata hashHex σ p info ch).2.2.Parents = []) := by
  constructor
  · intro hprev prev hfs hcond
    rw [snapshotFileMetadata_changed hashHex σ p info ch hprev prev hfs hcond]
    exact ⟨rfl, findSnapshot_storeSnapshot_self hashHex σ p _⟩
  · intro hfs
    rw [snapshotFileMetadata_fresh hashHex σ p info ch hfs]

/-- c4PrevHash and c4PrevFile form a concrete stored previous snapshot,
and c4Store is an archive whose path index maps the path /a to it. -/
def c4PrevHash : Hash := ⟨"sha256".data, "aa".data⟩

def c4PrevFile : File := ⟨"-rw-------".data, some ⟨"sha256".data, "bb".data⟩, []⟩

def c4Store : MemStore := ⟨[], [("/a".data, (c4PrevHash, c4PrevFile))], [], []⟩

/-- c4Info carries a mode line that differs from the stored snapshot's, so
the metadata step must create a child snapshot. -/
def c4Info : FileInfo := ⟨13, 448, "-rwxr-x---".data, 7, 99, true⟩

theorem snapshotFileMetadata_parent_links_witness :
    (snapshotFileMetadata (fun s => s) c4Store "/a".data c4Info
        (some ⟨"sha256".data, "bb".data⟩)).2.2.Parents = [some c4PrevHash]
    ∧ (snapshotFileMetadata (fun s => s) emptyStore "/a".data c4Info
        (some ⟨"sha256".data, "bb".data⟩)).2.2.Parents = [] :=
  ⟨((snapshotFileMetadata_parent_links (fun s => s) c4Store "/a".data c4Info
      (some ⟨"sha256".data, "bb".data⟩)).1 c4PrevHash c4PrevFile rfl (by decide)).1,
   (snapshotFileMetadata_parent_links (fun s => s) emptyStore "/a".data c4Info
      (some ⟨"sha256".data, "bb".data⟩)).2 rfl⟩

/-- Identity models snapshot.Identity: a signing algorithm name plus the
identity contents. -/
structure Identity where
  algorithm : Str
  contents : Str
deriving DecidableEq, Repr

/-- identityString models the Go method Identity.String for a non-nil
receiver: algorithm, double-colon separator, contents. -/
def identityString (id : Identity) : Str :=
  id.algorithm ++ ':' :: ':' :: id.contents

/-- idKey is where the identity index entry lives: Go files it under the
sha256 of the identity string (the idFile helper), computed with the same
digest function used everywhere else. -/
def idKey (hashHex : Str → Str) (id : Identity) : Str :=
  hashHex (identityString id)

/-- updateSignatureForIdentity models
storage.LocalFiles.UpdateSignatureForIdentity, including its control flow
around os.Remove for a nil hash: when an entry exists the removal
succeeds, so os.IsNotExist(nil) is false and the negated check returns the
failure-removing error with the entry already deleted; when no entry
exists the removal fails with not-exist and the function falls through to
write h.String() — the empty string, since the nil hash serializes as ""
— as the new entry contents.  The pair is the final store plus the
returned error (none models the nil error). -/
def updateSignatureForIdentity (hashHex : Str → Str) (σ : MemStore)
    (id : Identity) (h : Option Hash) : MemStore × Option String :=
  match h with
  | none =>
    match alookup σ.identities (idKey hashHex id) with
    | some _ =>
      ({σ with identities := aerase σ.identities (idKey hashHex id)},
       some "failure removing the identity entry")
    | none =>
      ({σ with identities := ainsert σ.identities (idKey hashHex id) (hashStringO none)},
       none)
  | some hv =>
    ({σ with identities := ainsert σ.identities (idKey hashHex id) (hashStringO (some hv))},
     none)

/-- latestSignatureForIdentity models
storage.LocalFiles.LatestSignatureForIdentity: a missing entry means the
identity is not known and yields the nil hash without error; otherwise the
stored bytes are parsed as a hash. -/
def latestSignatureForIdentity (hashHex : Str → Str) (σ : MemStore)
    (id : Identity) : Except String (Option Hash) :=
  match alookup σ.identities (idKey hashHex id) with
  | none => .ok none
  | some bs => ParseHash bs

/-- c8Id is a concrete identity and c8Store an archive holding a previous
signature entry for it (stored under the digest of the identity string,
here the identity function). -/
def c8Id : Identity := ⟨"ed25519".data, "alice".data⟩

def c8Store : MemStore := ⟨[], [], [], [(idKey (fun s => s) c8Id, "sha256:ab".data)]⟩

/-- C8, evaluation at the failing input.  Writing a nil signature for an
identity that has an entry returns the failure-removing error even though
the removal succeeded (the entry is gone and latest_signature then reports
nil without error); for an identity without an entry the call returns no
error but writes an empty index entry instead of removing anything.  The
claim says both calls succeed with no error. -/
theorem updateSignature_nil_errors_when_entry_exists :
    (updateSignatureForIdentity (fun s => s) c8Store c8Id none).2
        = some "failure removing the identity entry"
    ∧ latestSignatureForIdentity (fun s => s)
        (updateSignatureForIdentity (fun s => s) c8Store c8Id none).1 c8Id = .ok none
    ∧ (updateSignatureForIdentity (fun s => s) emptyStore c8Id none).2 = none
    ∧ alookup (updateSignatureForIdentity (fun s => s) emptyStore c8Id none).1.identities
        (idKey (fun s => s) c8Id) = some [] :=
  ⟨rfl, rfl, rfl, rfl⟩

/-- c9Info is a concrete stat tuple for the path /f, and c9Store an archive
whose path-info cache already holds exactly that tuple for /f. -/
def c9Info : FileInfo := ⟨5, 420, "-rw-r--r--".data, 11, 3, true⟩

def c9Store : MemStore := ⟨[], [], [("/f".data, cacheTupleOf c9Info)], []⟩

/-- C9, evaluation at the failing input.  When a cache entry for the path
already exists, CachePathInfo returns the failure-removing error instead
of rewriting the entry: the old entry is deleted, nothing is written, and
a subsequent PathInfoMatchesCache with unchanged stat information reports
false.  The claim says the rewrite succeeds and the subsequent match is
true. -/
theorem cachePathInfo_errors_when_entry_exists :
    pathInfoMatchesCache c9Store "/f".data c9Info = true
    ∧ (cachePathInfo c9Store "/f".data c9Info).2
        = some "failure removing the old cache entry"
    ∧ alookup (cachePathInfo c9Store "/f".data c9Info).1.cache "/f".data = none
    ∧ pathInfoMatchesCache (cachePathInfo c9Store "/f".data c9Info).1 "/f".data c9Info
        = false :=
  ⟨rfl, rfl, rfl, rfl⟩

/-- ZipEntry models one entry of a bundle zip archive: its name and its
byte contents. -/
structure ZipEntry where
  name : Str
  contents : Str
deriving DecidableEq, Repr

/-- goStartsWith models Go strings.HasPrefix. -/
def goStartsWith (pre s : Str) : Bool := pre.isPrefixOf s

/-- goTrimLead models Go strings.TrimPrefix: remove the leading occurrence
of pre when present, else return the string unchanged. -/
def goTrimLead (pre s : Str) : Str :=
  if pre.isPrefixOf s then s.drop pre.length else s

/-- bundleEntryPath models bundle.bundleEntryPath: the entry name
objects/<alg>/<hh>/<hh>/<rest> with the same two-level fan-out as the
store for digests longer than four characters, shallower fan-out for short
digests.  Go builds the name with path.Join, which drops empty components,
so the join below runs over the non-empty components. -/
def bundleEntryPath (h : Hash) : Str :=
  if h.hexContents.length > 4 then
    goJoinChar '/' ["objects".data, h.function, h.hexContents.take 2,
      (h.hexContents.drop 2).take 2, h.hexContents.drop 4]
  else if h.hexContents.length > 2 then
    goJoinChar '/' ["objects".data, h.function, h.hexContents.take 2,
      h.hexContents.drop 2]
  else
    goJoinChar '/'
      (["objects".data, h.function]
        ++ if h.hexContents = [] then [] else [h.hexContents])

/-- bundlePathHash models bundle.bundlePathHash: require the name to start
with "objects", trim exactly that word (leaving the following separator in
place), split the remainder on /, read parts[0] as the algorithm and the
concatenation of the remaining parts as the digest, and parse
"<alg>:<digest>".  none models the error return; ParseHash cannot yield
the nil hash here because its input always contains the colon. -/
def bundlePathHash (path : Str) : Option Hash :=
  if ¬goStartsWith "objects".data path then none
  else
    let p := goTrimLead "objects".data path
    let parts := goSplitChar '/' p
    if parts.length < 2 then none
    else
      let f := parts.headD []
      let c := parts.tail.join
      match ParseHash (f ++ ':' :: c) with
      | .ok (some h) => some h
      | _ => none

/-- validateZipEntry models bundle.validateZipEntry: an entry whose name
does not parse as an object path is allowed through unchecked; an object
entry is re-hashed and the digest must equal the hash from the name. -/
def validateZipEntry (hashHex : Str → Str) (f : ZipEntry) : Except String Unit :=
  match bundlePathHash f.name with
  | none => .ok ()
  | some h =>
    let realHash : Hash := ⟨"sha256".data, hashHex f.contents⟩
    if hashEqualO (some realHash) (some h) = true then .ok ()
    else .error "mismatched hash"

/-- validateAllEntries models the first loop of bundle.Import: validate
every entry in order, aborting on the first failure. -/
def validateAllEntries (hashHex : Str → Str) : List ZipEntry → Except String Unit
  | [] => .ok ()
  | f :: rest =>
    match validateZipEntry hashHex f with
    | .error e => .error e
    | .ok _ => validateAllEntries hashHex rest

/-- importPass models the second loop of bundle.Import: entries whose name
is not an object path are skipped, objects already present in the store
are skipped, and every remaining entry is stored with its returned hash
recorded in order. -/
def importPass (hashHex : Str → Str) : MemStore → List ZipEntry → MemStore × List Hash
  | σ, [] => (σ, [])
  | σ, f :: rest =>
    match bundlePathHash f.name with
    | none => importPass hashHex σ rest
    | some h =>
      match readObject σ h with
      | some _ => importPass hashHex σ rest
      | none =>
        let r := storeObject hashHex σ f.contents
        let next := importPass hashHex r.1 rest
        (next.1, r.2 :: next.2)

/-- Import models bundle.Import over the opened zip given as its entry
list: the first pass validates every entry — an error returns before any
store mutation — and only then does the second pass store the missing
objects.  The exclude parameter is accepted, exactly as in the Go
signature, and never consulted, exactly as in the Go body. -/
def Import (hashHex : Str → Str) (σ : MemStore) (entries : List ZipEntry)
    (exclude : List Hash) : Except String (MemStore × List Hash) :=
  match validateAllEntries hashHex entries with
  | .error e => .error e
  | .ok _ => .ok (importPass hashHex σ entries)

/-- bundlePathHash never recovers a hash from a name built by
bundleEntryPath: trimming only the word "objects" leaves the separator at
the front, the split therefore starts with an empty part, the algorithm
parsed from the name is the empty string, and ParseHash rejects it as
unsupported.  This is why Import silently ignores every entry its own
Export wrote. -/
theorem bundlePathHash_bundleEntryPath (h : Hash) :
    bundlePathHash (bundleEntryPath h) = none := by
  have hshape : ∃ t, bundleEntryPath h = "objects".data ++ '/' :: t := by
    unfold bundleEntryPath
    split
    · exact ⟨_, rfl⟩
    split
    · exact ⟨_, rfl⟩
    · by_cases he : h.hexContents = []
      · simp only [he, if_pos rfl, List.append_nil]
        exact ⟨_, rfl⟩
      · simp only [if_neg he]
        exact ⟨_, rfl⟩
  obtain ⟨t, ht⟩ := hshape
  have hpre : ("objects".data).isPrefixOf ("objects".data ++ '/' :: t) = true := by
    induction ("objects".data) with
    | nil => rfl
    | cons c cs ih => simpa [List.isPrefixOf] using ih
  have hdrop : ("objects".data ++ '/' :: t).drop ("objects".data).length = '/' :: t :=
    List.drop_left _ _
  rw [bundlePathHash, ht]
  rw [if_neg (by simp [goStartsWith, hpre])]
  rw [goTrimLead, if_pos hpre, hdrop]
  have hsplit : goSplitChar '/' ('/' :: t) = [] :: goSplitChar '/' t := by
    simp [goSplitChar]
  dsimp only
  rw [hsplit]
  have hlen : ¬(([] :: goSplitChar '/' t).length < 2) := by
    have := goSplitChar_ne_nil '/' t
    cases hg : goSplitChar '/' t with
    | nil => exact absurd hg this
    | cons a b => simp
  rw [if_neg hlen]
  have hparse : ∀ c, ParseHash (':' :: c) = .error "unsupported hash function" := by
    intro c
    have : goSplitN2 ':' (':' :: c) = ([], c) := by simp [goSplitN2]
    simp [ParseHash, this, supportedHashFunctions]
  simp [hparse]

/-- c2Entry is a bundle entry under the objects/ tree whose bytes do not
re-hash to the digest encoded in its name (the digest function used below
maps everything to 00, while the name encodes aabbcc). -/
def c2Entry : ZipEntry := ⟨"objects/sha256/aa/bb/cc".data, "zz".data⟩

/-- C2, evaluation at the failing input.  The tampered objects/ entry is
not recognized as an object (bundlePathHash fails on every name with a
separator after "objects"), so validation passes it through unchecked and
Import returns success having imported nothing — there is no integrity
error at all, where the claim requires Import to fail before any store
side effect. -/
theorem import_ignores_tampered_objects_entry :
    bundlePathHash c2Entry.name = none
    ∧ validateZipEntry (fun _ => "00".data) c2Entry = .ok ()
    ∧ Import (fun _ => "00".data) emptyStore [c2Entry] [] = .ok (emptyStore, []) :=
  ⟨rfl, rfl, rfl⟩

/-- c6Hash and c6Entry: the only entry-name shape bundlePathHash accepts
has no separator after "objects"; this entry's bytes do hash (under the
digest function chosen below) to the digest its name encodes, so it is a
valid object entry for the hash c6Hash. -/
def c6Hash : Hash := ⟨"sha256".data, "ab".data⟩

def c6Entry : ZipEntry := ⟨"objectssha256/ab".data, "xy".data⟩

/-- C6, evaluation at the failing input.  Importing a bundle whose only
object entry carries the hash c6Hash, with c6Hash itself on the exclude
list and absent from the store, stores the object anyway and reports it in
the imported list: the exclude argument of Import is ignored by its body. -/
theorem import_stores_excluded_hash :
    bundlePathHash c6Entry.name = some c6Hash
    ∧ Import (fun _ => "ab".data) emptyStore [c6Entry] [c6Hash]
        = .ok (⟨[(c6Hash, "xy".data)], [], [], []⟩, [c6Hash]) :=
  ⟨rfl, rfl⟩

/-- LogEntry models the log entry records as far as the traversals use
them: the snapshot hash and the parsed file.  The summary fields of the Go
structs are never read by ReadLog or Base and are not represented. -/
structure LogEntry where
  hash : Hash
  file : File
deriving DecidableEq, Repr

/-- SnapStore models the snapshot store as seen through ReadSnapshot: a
mapping from a hash to the File record stored under it; a hash missing
from the mapping is a read failure. -/
abbrev SnapStore := List (Hash × File)

/-- totalParents sums the parent-list lengths of the whole store; a
deduplicated breadth-first traversal dequeues at most one more element
than that, because only a newly visited snapshot enqueues its parents. -/
def totalParents (σ : SnapStore) : Nat :=
  (σ.map (fun e => e.2.Parents.length)).sum

/-- Modelled from the spec: the log package's ReadLog (the Go source file
of the log package is not among the provided sources; only its callers and
its test are).  Per the spec, read_log(h, depth) is a breadth-first
traversal from h through parents, deduplicated by hash: depth 0 yields an
empty list, depth 1 only the root, a negative depth means unlimited, and
the order is the root first, then its parents in order, then their unseen
parents.  An unreadable snapshot fails the traversal (none).  The fuel
argument only drives termination; readLogFuel always suffices.  Nil
parent pointers are skipped. -/
def readLogAux (σ : SnapStore) (depth : Int) :
    Nat → List Hash → List Hash → List LogEntry → Option (List LogEntry)
  | _, [], _, acc => some acc.reverse
  | 0, _ :: _, _, _ => none
  | fuel + 1, h :: queue, visited, acc =>
    if 0 ≤ depth ∧ depth.toNat ≤ acc.length then some acc.reverse
    else if h ∈ visited then readLogAux σ depth fuel queue visited acc
    else
      match alookup σ h with
      | none => none
      | some f =>
        readLogAux σ depth fuel (queue ++ f.Parents.filterMap id) (h :: visited)
          (⟨h, f⟩ :: acc)

/-- readLogFuel bounds the dequeues of the deduplicated traversal. -/
def readLogFuel (σ : SnapStore) : Nat := totalParents σ + 1

/-- ReadLog runs the spec-modelled breadth-first log traversal. -/
def ReadLog (σ : SnapStore) (h : Hash) (depth : Int) : Option (List LogEntry) :=
  readLogAux σ depth (readLogFuel σ) [h] [] []

theorem readLogAux_acc (σ : SnapStore) (depth : Int) :
    ∀ (fuel : Nat) (q v : List Hash) (acc l : List LogEntry),
      readLogAux σ depth fuel q v acc = some l → ∃ t, l = acc.reverse ++ t := by
  intro fuel
  induction fuel with
  | zero =>
    intro q v acc l hl
    cases q with
    | nil =>
      refine ⟨[], ?_⟩
      simp only [readLogAux, Option.some.injEq] at hl
      simp [← hl]
    | cons h qs => exact absurd hl (by simp [readLogAux])
  | succ n ih =>
    intro q v acc l hl
    cases q with
    | nil =>
      refine ⟨[], ?_⟩
      simp only [readLogAux, Option.some.injEq] at hl
      simp [← hl]
    | cons h qs =>
      simp only [readLogAux] at hl
      by_cases hstop : 0 ≤ depth ∧ depth.toNat ≤ acc.length
      · rw [if_pos hstop] at hl
        refine ⟨[], ?_⟩
        simp [← Option.some.injEq _ _ |>.mp hl]
      · rw [if_neg hstop] at hl
        by_cases hv : h ∈ v
        · rw [if_pos hv] at hl
          exact ih qs v acc l hl
        · rw [if_neg hv] at hl
          cases halk : alookup σ h with
          | none => rw [halk] at hl; exact absurd hl (by simp)
          | some f =>
            rw [halk] at hl
            obtain ⟨t, ht⟩ := ih _ _ _ _ hl
            refine ⟨⟨h, f⟩ :: t, ?_⟩
            simpa [List.append_assoc] using ht

theorem ReadLog_head (σ : SnapStore) (h : Hash) (l : List LogEntry)
    (hl : ReadLog σ h (-1) = some l) :
    ∃ f t, alookup σ h = some f ∧ l = ⟨h, f⟩ :: t := by
  unfold ReadLog readLogFuel at hl
  simp only [readLogAux] at hl
  rw [if_neg (by simp)] at hl
  rw [if_neg (by simp)] at hl
  cases halk : alookup σ h with
  | none => rw [halk] at hl; exact absurd hl (by simp)
  | some f =>
    rw [halk] at hl
    obtain ⟨t, ht⟩ := readLogAux_acc σ (-1) _ _ _ _ _ hl
    exact ⟨f, t, rfl, by simpa using ht⟩

/-- baseLockstep models the lockstep loop of merge.Base: while both logs
are non-empty, return the first cursor found in the opposite ancestor set
(the left cursor is checked first), otherwise pop both; an exhausted log
means there is no common ancestor beyond nil. -/
def baseLockstep : List LogEntry → List LogEntry → List Hash → List Hash → Option Hash
  | l :: ls, r :: rs, lAnc, rAnc =>
    if l.hash ∈ rAnc then some l.hash
    else if r.hash ∈ lAnc then some r.hash
    else baseLockstep ls rs lAnc rAnc
  | _, _, _, _ => none

/-- Base models merge.Base: Equal inputs (including both nil) return the
left side; a nil side returns nil; otherwise both full logs are read with
unlimited depth, each side's ancestor set is collected from its log, and
the lockstep loop scans for the first intersection.  The final catch-all
of the match is unreachable because both sides are non-nil there. -/
def Base (σ : SnapStore) (lhs rhs : Option Hash) : Except String (Option Hash) :=
  if hashEqualO lhs rhs = true then .ok lhs
  else if lhs = none ∨ rhs = none then .ok none
  else
    match lhs, rhs with
    | some l, some r =>
      match ReadLog σ l (-1) with
      | none => .error "failure reading the log"
      | some lhsLog =>
        match ReadLog σ r (-1) with
        | none => .error "failure reading the log"
        | some rhsLog =>
          .ok (baseLockstep lhsLog rhsLog (lhsLog.map LogEntry.hash)
                (rhsLog.map LogEntry.hash))
    | _, _ => .ok none

/-- C5.  The merge base operation satisfies the claimed identities: equal
sides return themselves (so base(x, x) = x, including the nil pair), a nil
side returns nil, and whenever y lies on the parent chain of x — y appears
in the breadth-first log of x, both full logs being readable — the base of
x and y is y.  The last part also assumes x is not in turn an ancestor of
y unless equal, which holds in every store reachable by the program since
hash links cannot form cycles. -/
theorem mergeBase_properties (σ : SnapStore) (x y : Hash)
    (lx ly : List LogEntry)
    (hx : ReadLog σ x (-1) = some lx) (hy : ReadLog σ y (-1) = some ly)
    (hmem : y ∈ lx.map LogEntry.hash)
    (hnc : x = y ∨ x ∉ ly.map LogEntry.hash) :
    Base σ (some x) (some y) = .ok (some y)
    ∧ (∀ a : Option Hash, Base σ a a = .ok a)
    ∧ (∀ a : Option Hash, Base σ none a = .ok none ∧ Base σ a none = .ok none) := by
  refine ⟨?_, ?_, ?_⟩
  · by_cases hxy : x = y
    · subst hxy
      simp [Base, hashEqualO_self]
    · have hne : hashEqualO (some x) (some y) = false := by
        rw [← Bool.not_eq_true, hashEqualO_iff]
        simp [hxy]
      have hnx : x ∉ ly.map LogEntry.hash := hnc.resolve_left hxy
      obtain ⟨fx, tx, halx, hlx⟩ := ReadLog_head σ x lx hx
      obtain ⟨fy, ty, haly, hly⟩ := ReadLog_head σ y ly hy
      rw [Base, if_neg (by simp [hne]), if_neg (by simp)]
      rw [hx, hy, hlx, hly]
      rw [hlx] at hmem
      rw [hly] at hnx
      simp only [baseLockstep]
      rw [if_neg (by simpa [hly] using hnx), if_pos (by simpa [hlx] using hmem)]
  · intro a
    simp [Base, hashEqualO_self]
  · intro a
    constructor
    · by_cases ha : a = none
      · subst ha; simp [Base, hashEqualO_self]
      · obtain ⟨v, rfl⟩ := Option.ne_none_iff_exists'.mp ha
        simp [Base, hashEqualO]
    · by_cases ha : a = none
      · subst ha; simp [Base, hashEqualO_self]
      · obtain ⟨v, rfl⟩ := Option.ne_none_iff_exists'.mp ha
        simp [Base, hashEqualO]

/-- c5Store holds a two-snapshot history: c5X is the child whose only
parent is c5Y. -/
def c5Y : Hash := ⟨"sha256".data, "aa".data⟩

def c5X : Hash := ⟨"sha256".data, "bb".data⟩

def c5FileY : File := ⟨"-rw-------".data, some ⟨"sha256".data, "cc".data⟩, []⟩

def c5FileX : File := ⟨"-rw-------".data, some ⟨"sha256".data, "dd".data⟩, [some c5Y]⟩

def c5Store : SnapStore := [(c5X, c5FileX), (c5Y, c5FileY)]

theorem mergeBase_properties_witness :
    Base c5Store (some c5X) (some c5Y) = .ok (some c5Y) :=
  (mergeBase_properties c5Store c5X c5Y
      [⟨c5X, c5FileX⟩, ⟨c5Y, c5FileY⟩] [⟨c5Y, c5FileY⟩]
      rfl rfl (by decide) (Or.inr (by decide))).1

/-- archiveReadLogAux models the loop of archive.ReadLog exactly: dequeue
a hash, read and append its snapshot unconditionally — there is no check
of the visited map at dequeue time — then mark it visited and enqueue
those of its parents not yet visited.  The Go loop has no bound of its own
(a cyclic store would never terminate); the fuel argument exists only to
drive termination in Lean, and the evaluation below runs with more fuel
than the Go loop iterates on that input, so both compute the same list.
Nil parent pointers, which Go would dereference, are skipped. -/
def archiveReadLogAux (σ : SnapStore) :
    Nat → List Hash → List Hash → List LogEntry → Option (List LogEntry)
  | _, [], _, acc => some acc.reverse
  | 0, _ :: _, _, _ => none
  | fuel + 1, h :: queue, visited, acc =>
    match alookup σ h with
    | none => none
    | some f =>
      let visited1 := h :: visited
      archiveReadLogAux σ fuel
        (queue ++ (f.Parents.filterMap id).filter (fun p => decide (p ∉ visited1)))
        visited1 (⟨h, f⟩ :: acc)

/-- archiveReadLog models archive.ReadLog with explicit fuel. -/
def archiveReadLog (σ : SnapStore) (h : Hash) (fuel : Nat) :
    Option (List LogEntry) :=
  archiveReadLogAux σ fuel [h] [] []

/-- c7Store is a diamond-shaped history: the root c7R has parents c7A and
c7B, which share the single common ancestor c7C. -/
def c7R : Hash := ⟨"sha256".data, "aa".data⟩

def c7A : Hash := ⟨"sha256".data, "ab".data⟩

def c7B : Hash := ⟨"sha256".data, "ac".data⟩

def c7C : Hash := ⟨"sha256".data, "ad".data⟩

def c7Contents : Option Hash := some ⟨"sha256".data, "ff".data⟩

def c7Store : SnapStore :=
  [(c7R, ⟨"-rw-------".data, c7Contents, [some c7A, some c7B]⟩),
   (c7A, ⟨"-rw-------".data, c7Contents, [some c7C]⟩),
   (c7B, ⟨"-rw-------".data, c7Contents, [some c7C]⟩),
   (c7C, ⟨"-rw-------".data, c7Contents, []⟩)]

/-- C7, evaluation at the failing input.  On the diamond-shaped history
the archive ReadLog returns the shared ancestor c7C twice: c7C is enqueued
by both c7A and c7B before its first visit, and the loop appends every
dequeued hash to the result without checking the visited map.  The
deduplicated traversal the spec describes returns each reachable snapshot
exactly once on the same store. -/
theorem archiveReadLog_duplicates_diamond :
    (archiveReadLog c7Store c7R 16).map (List.map LogEntry.hash)
      = some [c7R, c7A, c7B, c7C, c7C]
    ∧ (ReadLog c7Store c7R (-1)).map (List.map LogEntry.hash)
        = some [c7R, c7A, c7B, c7C] :=
  ⟨rfl, rfl⟩
